import Mathlib

/-!
Verification of the countdown-as-a-service core (src/main.go).

Shallow embedding conventions:
- `time.Time` values are modelled as `Int` nanoseconds since the epoch
  (Go's `time.Time`/`time.Duration` arithmetic is 64-bit nanoseconds; we
  use unbounded `Int` since the program never relies on overflow).
- `int(duration.Seconds())` in Go truncates toward zero; this is `Int.tdiv`
  on the nanosecond count by `nsPerSec`.
- `time.Now().After(t)` is strict `t < now`.
- The Go map `history` is modelled as an association list with
  map-insert/delete semantics (`List.lookup` for reads); `historyOrder`
  is a `List Nat`; the global mutable state is `RegistryState`, threaded
  explicitly. The `go runTimer(jobID, delay)` launches are recorded in
  `armedTimers` so that "no timer is armed" is expressible.
- Handlers run their registry section under one mutex, so each operation
  is a pure state transformer.

Layout: all definitions (the embedding of src/main.go plus the operation
sequences the claims quantify over) come first, then the supporting
lemmas, then one theorem per claim.
-/

namespace Countdown


abbrev nsPerSec : Int := 1000000000

/-- Go struct `DelayEntry` (src/main.go lines 15-22). -/
structure DelayEntry where
  ID : Nat
  Name : String
  DateTimeAdded : Int
  TotalDelaySecs : Int
  IsCompleted : Bool
  CompletedTime : Option Int
deriving DecidableEq, Repr

/-- Go struct `ApiStatusResponse` (src/main.go lines 25-34). -/
structure ApiStatusResponse where
  ID : Nat
  Name : String
  DateTimeAdded : Int
  TotalDelaySecs : Int
  Status : String
  ElapsedTimeSecs : Int
  RemainingTimeSecs : Int
  CompletedTime : Option Int
deriving DecidableEq, Repr

/-- The global mutable state guarded by `mu` (src/main.go lines 37-43),
plus the multiset of `go runTimer(jobID, delay)` launches performed so far. -/
structure RegistryState where
  history : List (Nat × DelayEntry)
  historyOrder : List Nat
  nextEntryID : Nat
  armedTimers : List (Nat × Int)
deriving DecidableEq, Repr

def maxHistory : Nat := 10

/-- The initial values of the globals. -/
def initialState : RegistryState :=
  { history := [], historyOrder := [], nextEntryID := 1, armedTimers := [] }

/-- Go `delete(history, id)`: removes the binding for `id`. -/
def eraseKey (id : Nat) (h : List (Nat × DelayEntry)) : List (Nat × DelayEntry) :=
  h.filter (fun p => p.1 != id)

/-- Go `history[id] = e`: map insert (overwrite any existing binding). -/
def insertKey (id : Nat) (e : DelayEntry) (h : List (Nat × DelayEntry)) :
    List (Nat × DelayEntry) :=
  (id, e) :: eraseKey id h

/-- `getStatusDetails` (src/main.go lines 96-109). Go reads the clock
itself (`time.Since`, `time.Now()`); the embedding takes that instant as
the explicit parameter `now`. Returns `(elapsedSecs, currentStatus,
statusClass)`. -/
def getStatusDetails (entry : DelayEntry) (now : Int) : Int × String × String :=
  let expectedCompletionTime := entry.DateTimeAdded + entry.TotalDelaySecs * nsPerSec
  let elapsedSecs := Int.tdiv (now - entry.DateTimeAdded) nsPerSec
  if entry.IsCompleted || decide (expectedCompletionTime < now) then
    (entry.TotalDelaySecs, "completed", "status-complete")
  else
    (elapsedSecs, "in-progress", "status-progress")

/-- The `remainingSecs` computation repeated in `statusDetailHandler` and
the API handlers (src/main.go lines 327-330, 359-362, 401-404). -/
def clampRemaining (entry : DelayEntry) (elapsedSecs : Int) : Int :=
  let remainingSecs := entry.TotalDelaySecs - elapsedSecs
  if remainingSecs < 0 then 0 else remainingSecs

/-- The loop of `keepHistoryBounded` (src/main.go lines 112-121), recursing
on the insertion-order list: while it is longer than `maxHistory`, drop its
head and delete that ID from the lookup table. -/
def keepHistoryBoundedAux :
    List Nat → List (Nat × DelayEntry) → List Nat × List (Nat × DelayEntry)
  | [], hist => ([], hist)
  | oldest :: rest, hist =>
    if (oldest :: rest).length ≤ maxHistory then (oldest :: rest, hist)
    else keepHistoryBoundedAux rest (eraseKey oldest hist)

/-- The POST branch of `startHandler` (src/main.go lines 238-267): the
core `Create` operation. Returns `(none, s)` on `InvalidDelay`
(`delay < 1`), rejected before any state is touched; otherwise stores the
new entry, appends its ID to the insertion order, bounds the history,
bumps the ID counter and records the `go runTimer(jobID, delay)` launch. -/
def createJob (jobName : String) (delay : Int) (now : Int) (s : RegistryState) :
    Option Nat × RegistryState :=
  if delay < 1 then (none, s)
  else
    let newEntry : DelayEntry :=
      { ID := s.nextEntryID, Name := jobName, DateTimeAdded := now,
        TotalDelaySecs := delay, IsCompleted := false, CompletedTime := none }
    let hist := insertKey s.nextEntryID newEntry s.history
    let order := s.historyOrder ++ [s.nextEntryID]
    let bounded := keepHistoryBoundedAux order hist
    (some s.nextEntryID,
      { history := bounded.2, historyOrder := bounded.1,
        nextEntryID := s.nextEntryID + 1,
        armedTimers := s.armedTimers ++ [(s.nextEntryID, delay)] })

/-- The body of `runTimer` after the sleep (src/main.go lines 427-437):
the completion fire. If the ID is present, set `IsCompleted` and overwrite
`CompletedTime` with the fire time; otherwise do nothing. -/
def markCompleted (jobID : Nat) (now : Int) (s : RegistryState) : RegistryState :=
  match s.history.lookup jobID with
  | none => s
  | some entry =>
    let e := { entry with IsCompleted := true, CompletedTime := some now }
    { s with history := insertKey jobID e s.history }

/-- The registry read in `statusDetailHandler` / `apiStatusDetailHandler`
(src/main.go lines 317-324, 391-398): the core `Get`. -/
def getJob (jobID : Nat) (s : RegistryState) : Option DelayEntry :=
  s.history.lookup jobID

/-- `apiStatusDetailHandler` after URL parsing (src/main.go lines 391-419):
looks the job up under the lock, releases it, and derives the response.
Returns the (unchanged) state to make explicit that the read never writes. -/
def apiStatusDetail (jobID : Nat) (now : Int) (s : RegistryState) :
    Option ApiStatusResponse × RegistryState :=
  match s.history.lookup jobID with
  | none => (none, s)
  | some entry =>
    let d := getStatusDetails entry now
    let remainingSecs := clampRemaining entry d.1
    (some { ID := entry.ID, Name := entry.Name,
            DateTimeAdded := entry.DateTimeAdded,
            TotalDelaySecs := entry.TotalDelaySecs,
            Status := d.2.1, ElapsedTimeSecs := d.1,
            RemainingTimeSecs := remainingSecs,
            CompletedTime := entry.CompletedTime }, s)

/-- Concrete entry used as a test input: job 1, created at time 0, with a
5-second delay, not completed. -/
def sampleEntry : DelayEntry :=
  { ID := 1, Name := "a", DateTimeAdded := 0, TotalDelaySecs := 5,
    IsCompleted := false, CompletedTime := none }

/-- The fresh entry stored by `startHandler` (src/main.go lines 248-255). -/
def mkNewEntry (jobName : String) (delay now : Int) (id : Nat) : DelayEntry :=
  { ID := id, Name := jobName, DateTimeAdded := now, TotalDelaySecs := delay,
    IsCompleted := false, CompletedTime := none }

/-- A mixed sequence of create requests `(name, delay, createdAt)`, run in
order; collects the IDs returned by the successful creates. -/
def runRequests : List (String × Int × Int) → RegistryState → List Nat × RegistryState
  | [], s => ([], s)
  | (nm, d, t) :: rest, s =>
    let c := createJob nm d t s
    let r := runRequests rest c.2
    (match c.1 with
     | some id => id :: r.1
     | none => r.1, r.2)

/-- A create request is accepted exactly when its delay is at least 1. -/
def isValidReq (r : String × Int × Int) : Bool := decide (1 ≤ r.2.1)

/-- The two registry-mutating operations: a create request and a
completion-timer fire. -/
inductive Op where
  | create (jobName : String) (delay : Int) (now : Int)
  | fire (jobID : Nat) (t : Int)

def applyOp : Op → RegistryState → RegistryState
  | Op.create nm d t, s => (createJob nm d t s).2
  | Op.fire id t, s => markCompleted id t s

def applyOps : List Op → RegistryState → RegistryState
  | [], s => s
  | op :: rest, s => applyOps rest (applyOp op s)

/-- The C10 invariant: the insertion-order list has no duplicates and the
keys of the lookup table are exactly the IDs in the insertion order. -/
def goodState (s : RegistryState) : Prop :=
  s.historyOrder.Nodup ∧ ∀ a, a ∈ s.history.map Prod.fst ↔ a ∈ s.historyOrder

/-- Strengthening of `goodState` used for the induction: every retained
ID is smaller than the next ID to be issued. -/
def registryInv (s : RegistryState) : Prop :=
  goodState s ∧ ∀ a ∈ s.historyOrder, a < s.nextEntryID

/-- `n` successful creates: the i-th (0-based) uses name `nm i`, delay
`dl i` and creation time `tm i`. -/
def createOps (nm : Nat → String) (dl tm : Nat → Int) (n : Nat) : List Op :=
  (List.range n).map fun i => Op.create (nm i) (dl i) (tm i)

/-- The record the i-th create stores, indexed by its ID `i + 1`. -/
def entryOfID (nm : Nat → String) (dl tm : Nat → Int) (id : Nat) : DelayEntry :=
  mkNewEntry (nm (id - 1)) (dl (id - 1)) (tm (id - 1)) id

/-- The lookup table holding exactly the jobs with the given IDs. -/
def historyOfIDs (nm : Nat → String) (dl tm : Nat → Int) (l : List Nat) :
    List (Nat × DelayEntry) :=
  l.map (fun i => (i, entryOfID nm dl tm i))

/-! ### Supporting lemmas -/

lemma mem_keys_iff_lookup_isSome (l : List (Nat × DelayEntry)) (a : Nat) :
    a ∈ l.map Prod.fst ↔ (l.lookup a).isSome := by
  rw [List.lookup_isSome_iff]
  constructor
  · intro h
    rcases List.mem_map.1 h with ⟨p, hp, hpa⟩
    exact ⟨p, hp, by simp [hpa]⟩
  · rintro ⟨p, hp, hpa⟩
    exact List.mem_map.2 ⟨p, hp, (beq_iff_eq.mp hpa).symm⟩

lemma eraseKey_of_not_mem {l : List (Nat × DelayEntry)} {id : Nat}
    (h : ∀ p ∈ l, p.1 ≠ id) : eraseKey id l = l := by
  unfold eraseKey
  rw [List.filter_eq_self]
  intro p hp
  simpa using h p hp

lemma lookup_insertKey_self (l : List (Nat × DelayEntry)) (id : Nat) (e : DelayEntry) :
    (insertKey id e l).lookup id = some e := by
  simp [insertKey]

lemma mem_keys_eraseKey (l : List (Nat × DelayEntry)) (id a : Nat) :
    a ∈ (eraseKey id l).map Prod.fst ↔ a ∈ l.map Prod.fst ∧ a ≠ id := by
  simp only [eraseKey, List.mem_map, List.mem_filter]
  constructor
  · rintro ⟨p, ⟨hp, hne⟩, rfl⟩
    exact ⟨⟨p, hp, rfl⟩, by simpa using hne⟩
  · rintro ⟨⟨p, hp, rfl⟩, hne⟩
    exact ⟨p, ⟨hp, by simpa using hne⟩, rfl⟩

lemma mem_keys_insertKey (l : List (Nat × DelayEntry)) (id a : Nat) (e : DelayEntry) :
    a ∈ (insertKey id e l).map Prod.fst ↔ a = id ∨ a ∈ l.map Prod.fst := by
  simp only [insertKey, List.map_cons, List.mem_cons, mem_keys_eraseKey]
  by_cases h : a = id <;> simp [h]

lemma lookup_eraseKey_ne (l : List (Nat × DelayEntry)) {id a : Nat} (h : a ≠ id) :
    (eraseKey id l).lookup a = l.lookup a := by
  induction l with
  | nil => rfl
  | cons p rest ih =>
    obtain ⟨k, v⟩ := p
    by_cases hk : k = id
    · subst hk
      have hcons : eraseKey k ((k, v) :: rest) = eraseKey k rest := by
        simp [eraseKey, List.filter_cons]
      rw [hcons, ih, List.lookup_cons]
      simp [show (a == k) = false from by simpa using h]
    · have hcons : eraseKey id ((k, v) :: rest) = (k, v) :: eraseKey id rest := by
        simp [eraseKey, List.filter_cons, hk]
      rw [hcons, List.lookup_cons, List.lookup_cons, ih]

lemma lookup_insertKey_ne (l : List (Nat × DelayEntry)) {id a : Nat} (e : DelayEntry)
    (h : a ≠ id) : (insertKey id e l).lookup a = l.lookup a := by
  rw [insertKey, List.lookup_cons]
  simp only [show (a == id) = false from by simpa using h]
  exact lookup_eraseKey_ne l h

lemma createJob_invalid (jobName : String) (delay now : Int) (s : RegistryState)
    (h : delay < 1) : createJob jobName delay now s = (none, s) := by
  unfold createJob
  rw [if_pos h]

lemma createJob_valid (jobName : String) (delay now : Int) (s : RegistryState)
    (h : 1 ≤ delay) :
    createJob jobName delay now s =
      (some s.nextEntryID,
       { history := (keepHistoryBoundedAux (s.historyOrder ++ [s.nextEntryID])
           (insertKey s.nextEntryID (mkNewEntry jobName delay now s.nextEntryID)
             s.history)).2,
         historyOrder := (keepHistoryBoundedAux (s.historyOrder ++ [s.nextEntryID])
           (insertKey s.nextEntryID (mkNewEntry jobName delay now s.nextEntryID)
             s.history)).1,
         nextEntryID := s.nextEntryID + 1,
         armedTimers := s.armedTimers ++ [(s.nextEntryID, delay)] }) := by
  unfold createJob
  rw [if_neg (by omega)]
  rfl

lemma keepHistoryBoundedAux_le (order : List Nat) (hist : List (Nat × DelayEntry))
    (h : order.length ≤ maxHistory) : keepHistoryBoundedAux order hist = (order, hist) := by
  cases order with
  | nil => rfl
  | cons o rest => rw [keepHistoryBoundedAux, if_pos h]

lemma keepHistoryBoundedAux_sublist (order : List Nat) (hist : List (Nat × DelayEntry)) :
    (keepHistoryBoundedAux order hist).1.Sublist order := by
  induction order generalizing hist with
  | nil => simp [keepHistoryBoundedAux]
  | cons oldest rest ih =>
    rw [keepHistoryBoundedAux]
    by_cases hc : (oldest :: rest).length ≤ maxHistory
    · rw [if_pos hc]
    · rw [if_neg hc]
      exact (ih _).trans (List.sublist_cons_self oldest rest)

lemma keepHistoryBoundedAux_keys (order : List Nat) (hist : List (Nat × DelayEntry))
    (hnd : order.Nodup)
    (hk : ∀ a, a ∈ hist.map Prod.fst ↔ a ∈ order) (a : Nat) :
    a ∈ (keepHistoryBoundedAux order hist).2.map Prod.fst ↔
      a ∈ (keepHistoryBoundedAux order hist).1 := by
  induction order generalizing hist with
  | nil => simpa [keepHistoryBoundedAux] using hk a
  | cons oldest rest ih =>
    rw [keepHistoryBoundedAux]
    by_cases hc : (oldest :: rest).length ≤ maxHistory
    · rw [if_pos hc]
      exact hk a
    · rw [if_neg hc]
      refine ih _ (List.Nodup.of_cons hnd) ?_
      intro b
      rw [mem_keys_eraseKey, hk b]
      constructor
      · rintro ⟨hb, hne⟩
        rcases List.mem_cons.mp hb with rfl | hb'
        · exact absurd rfl hne
        · exact hb'
      · intro hb
        refine ⟨List.mem_cons_of_mem _ hb, ?_⟩
        rintro rfl
        exact (List.nodup_cons.mp hnd).1 hb

lemma runRequests_ids (reqs : List (String × Int × Int)) (s : RegistryState) :
    (runRequests reqs s).1 = List.range' s.nextEntryID (reqs.countP isValidReq) := by
  induction reqs generalizing s with
  | nil => simp [runRequests]
  | cons r rest ih =>
    obtain ⟨nm, d, t⟩ := r
    by_cases h : 1 ≤ d
    · rw [runRequests]
      simp only [createJob_valid nm d t s h, ih]
      rw [List.countP_cons]
      simp only [isValidReq, decide_eq_true_eq]
      rw [if_pos h, List.range'_succ]
    · rw [runRequests]
      simp only [createJob_invalid nm d t s (by omega), ih]
      rw [List.countP_cons]
      simp only [isValidReq, decide_eq_true_eq]
      rw [if_neg h, Nat.add_zero]

lemma registryInv_create (jobName : String) (delay now : Int) (s : RegistryState)
    (h : registryInv s) : registryInv (createJob jobName delay now s).2 := by
  by_cases hd : delay < 1
  · rw [createJob_invalid jobName delay now s hd]
    exact h
  · obtain ⟨⟨hnd, hk⟩, hlt⟩ := h
    rw [createJob_valid jobName delay now s (by omega)]
    have hfresh : s.nextEntryID ∉ s.historyOrder := fun hm => lt_irrefl _ (hlt _ hm)
    have hnd' : (s.historyOrder ++ [s.nextEntryID]).Nodup := by
      rw [List.nodup_append]
      exact ⟨hnd, List.nodup_singleton _, by simpa [List.disjoint_singleton] using hfresh⟩
    have hk' : ∀ a, a ∈ (insertKey s.nextEntryID
        (mkNewEntry jobName delay now s.nextEntryID) s.history).map Prod.fst ↔
        a ∈ s.historyOrder ++ [s.nextEntryID] := by
      intro a
      rw [mem_keys_insertKey, hk a, List.mem_append, List.mem_singleton, or_comm]
    refine ⟨⟨?_, ?_⟩, ?_⟩
    · exact hnd'.sublist (keepHistoryBoundedAux_sublist _ _)
    · exact keepHistoryBoundedAux_keys _ _ hnd' hk'
    · intro a ha
      show a < s.nextEntryID + 1
      have hmem := (keepHistoryBoundedAux_sublist (s.historyOrder ++ [s.nextEntryID])
        (insertKey s.nextEntryID (mkNewEntry jobName delay now s.nextEntryID)
          s.history)).mem ha
      rcases List.mem_append.mp hmem with hmem' | hmem'
      · exact Nat.lt_succ_of_lt (hlt _ hmem')
      · rw [List.mem_singleton] at hmem'
        omega

lemma registryInv_fire (jobID : Nat) (t : Int) (s : RegistryState)
    (h : registryInv s) : registryInv (markCompleted jobID t s) := by
  obtain ⟨⟨hnd, hk⟩, hlt⟩ := h
  unfold markCompleted
  cases hl : s.history.lookup jobID with
  | none => exact ⟨⟨hnd, hk⟩, hlt⟩
  | some e =>
    refine ⟨⟨hnd, ?_⟩, hlt⟩
    intro a
    show a ∈ (insertKey jobID _ s.history).map Prod.fst ↔ a ∈ s.historyOrder
    rw [mem_keys_insertKey, ← hk a]
    constructor
    · rintro (rfl | ha)
      · rw [mem_keys_iff_lookup_isSome, hl]
        rfl
      · exact ha
    · exact Or.inr

lemma registryInv_initial : registryInv initialState := by
  refine ⟨⟨List.nodup_nil, fun a => ?_⟩, fun a ha => absurd ha (List.not_mem_nil a)⟩
  simp [initialState]

lemma registryInv_applyOps (ops : List Op) (s : RegistryState)
    (h : registryInv s) : registryInv (applyOps ops s) := by
  induction ops generalizing s with
  | nil => exact h
  | cons op rest ih =>
    rw [applyOps]
    apply ih
    cases op with
    | create nm d t => exact registryInv_create nm d t s h
    | fire id t => exact registryInv_fire id t s h

lemma applyOps_append (l1 l2 : List Op) (s : RegistryState) :
    applyOps (l1 ++ l2) s = applyOps l2 (applyOps l1 s) := by
  induction l1 generalizing s with
  | nil => rfl
  | cons op rest ih => rw [List.cons_append, applyOps, applyOps, ih]

lemma lookup_historyOfIDs_isSome (nm : Nat → String) (dl tm : Nat → Int)
    (l : List Nat) (a : Nat) :
    (List.lookup a (historyOfIDs nm dl tm l)).isSome ↔ a ∈ l := by
  rw [historyOfIDs, List.lookup_isSome_iff]
  constructor
  · rintro ⟨p, hp, hpa⟩
    rcases List.mem_map.1 hp with ⟨i, hi, rfl⟩
    have : a = i := beq_iff_eq.mp hpa
    rwa [this]
  · intro ha
    exact ⟨(a, entryOfID nm dl tm a), List.mem_map.2 ⟨a, ha, rfl⟩, by simp⟩

/-- Closed form of the registry state after `n` successful creates: the
counter is at `n + 1`, the insertion order is the last `min n 10` of the
issued IDs `1..n`, and the lookup table holds exactly those jobs. -/
lemma applyOps_createOps (nm : Nat → String) (dl tm : Nat → Int)
    (hdl : ∀ i, 1 ≤ dl i) (n : Nat) :
    applyOps (createOps nm dl tm n) initialState =
      { history := historyOfIDs nm dl tm (List.range' (n - min n 10 + 1) (min n 10)).reverse,
        historyOrder := List.range' (n - min n 10 + 1) (min n 10),
        nextEntryID := n + 1,
        armedTimers := (List.range n).map (fun i => (i + 1, dl i)) } := by
  induction n with
  | zero => rfl
  | succ n ih =>
    have hmn : min n 10 ≤ n := Nat.min_le_left n 10
    have hsplit : createOps nm dl tm (n + 1) =
        createOps nm dl tm n ++ [Op.create (nm n) (dl n) (tm n)] := by
      rw [createOps, createOps, List.range_succ, List.map_append]
      rfl
    rw [hsplit, applyOps_append, ih, applyOps, applyOp, applyOps]
    rw [createJob_valid _ _ _ _ (hdl n)]
    dsimp only
    have hcat : List.range' (n - min n 10 + 1) (min n 10) ++ [n + 1] =
        List.range' (n - min n 10 + 1) (min n 10 + 1) := by
      rw [List.range'_1_concat]
      congr 2
      omega
    have hins : insertKey (n + 1) (mkNewEntry (nm n) (dl n) (tm n) (n + 1))
        (historyOfIDs nm dl tm (List.range' (n - min n 10 + 1) (min n 10)).reverse) =
        historyOfIDs nm dl tm (List.range' (n - min n 10 + 1) (min n 10 + 1)).reverse := by
      rw [insertKey, eraseKey_of_not_mem]
      · rw [← hcat, List.reverse_append, List.reverse_singleton, List.singleton_append,
          historyOfIDs, historyOfIDs, List.map_cons]
        rfl
      · intro p hp
        rcases List.mem_map.1 hp with ⟨i, hi, rfl⟩
        rw [List.mem_reverse, List.mem_range'_1] at hi
        show i ≠ n + 1
        omega
    rw [hins, hcat]
    by_cases hn : n < 10
    · rw [keepHistoryBoundedAux_le _ _
        (by rw [List.length_range']; show min n 10 + 1 ≤ 10; omega)]
      have h1 : min n 10 + 1 = min (n + 1) 10 := by omega
      have h2 : n - min n 10 + 1 = n + 1 - min (n + 1) 10 + 1 := by omega
      rw [List.range_succ, List.map_append]
      rw [h2, h1]
      simp
    · -- n ≥ 10: one eviction
      have hm10 : min n 10 = 10 := by omega
      rw [hm10] at *
      have hsucc : List.range' (n - 10 + 1) (10 + 1) =
          (n - 10 + 1) :: List.range' (n - 10 + 1 + 1) 10 := List.range'_succ _ 10 1
      rw [hsucc, keepHistoryBoundedAux]
      rw [if_neg (by rw [List.length_cons, List.length_range']; simp [maxHistory])]
      have herase : eraseKey (n - 10 + 1)
          (historyOfIDs nm dl tm ((n - 10 + 1) :: List.range' (n - 10 + 1 + 1) 10).reverse) =
          historyOfIDs nm dl tm (List.range' (n - 10 + 1 + 1) 10).reverse := by
        rw [List.reverse_cons, historyOfIDs, historyOfIDs, List.map_append, eraseKey,
          List.filter_append]
        rw [List.filter_eq_self.mpr ?side1]
        case side1 =>
          intro p hp
          rcases List.mem_map.1 hp with ⟨i, hi, rfl⟩
          rw [List.mem_reverse, List.mem_range'_1] at hi
          show (i != n - 10 + 1) = true
          simp only [bne_iff_ne, ne_eq]
          omega
        rw [List.map_singleton, List.filter_singleton]
        simp
      rw [herase, keepHistoryBoundedAux_le _ _
        (by rw [List.length_range']; exact Nat.le_refl 10)]
      have h1 : min (n + 1) 10 = 10 := by omega
      have h2 : n - 10 + 1 + 1 = n + 1 - 10 + 1 := by omega
      rw [List.range_succ, List.map_append, h1, h2]
      simp

/-! ### The claims -/

/-- C1 counterexample: the claim says the status deriver reports
"completed" for every `now ≥ createdAt + d` once `completed = false`,
but `getStatusDetails` uses Go's strict `time.Now().After(expected)`:
at `now = createdAt + d` exactly (job created at 0 with a 5-second delay,
queried at exactly 5e9 ns) it still reports "in-progress". -/
theorem C1_counterexample :
    ¬ (∀ (e : DelayEntry) (now : Int), e.IsCompleted = false →
        e.DateTimeAdded + e.TotalDelaySecs * nsPerSec ≤ now →
        (getStatusDetails e now).2.1 = "completed") := by
  intro h
  have hc := h sampleEntry 5000000000 rfl (by decide)
  revert hc
  decide

/-- C1 (amended): the status is "completed" exactly when the completed
flag is set or `now` is strictly after `createdAt + totalDelaySeconds`,
and "in-progress" exactly when the flag is clear and
`now ≤ createdAt + totalDelaySeconds`; the flag forces "completed"
regardless of `now`. -/
theorem C1_status_threshold (e : DelayEntry) (now : Int) :
    ((getStatusDetails e now).2.1 = "completed" ↔
      (e.IsCompleted = true ∨ e.DateTimeAdded + e.TotalDelaySecs * nsPerSec < now)) ∧
    ((getStatusDetails e now).2.1 = "in-progress" ↔
      (e.IsCompleted = false ∧ now ≤ e.DateTimeAdded + e.TotalDelaySecs * nsPerSec)) := by
  simp only [getStatusDetails]
  by_cases hc : e.IsCompleted = true
  · simp [hc]
  · have hc' : e.IsCompleted = false := by simpa using hc
    by_cases hlt : e.DateTimeAdded + e.TotalDelaySecs * nsPerSec < now
    · simp [hc', hlt]
    · simp [hc', hlt]
      omega

/-- C2 counterexample: start from a fresh job 1, fire its completion at
time 100, then fire again at time 200. The second invocation is not a
no-op: `runTimer` checks only presence (`if entry, ok := history[jobID]`),
never `IsCompleted`, so it overwrites `completedAt` from 100 to 200. -/
theorem C2_counterexample :
    ((markCompleted 1 100 (createJob "a" 1 0 initialState).2).history.lookup 1).map
        DelayEntry.CompletedTime = some (some 100) ∧
    ((markCompleted 1 200 (markCompleted 1 100
        (createJob "a" 1 0 initialState).2)).history.lookup 1).map
        DelayEntry.CompletedTime = some (some 200) := by
  decide

/-- C2 (amended): the completion fire is a no-op only when the ID is
absent from the registry; whenever the ID is present — already completed
or not — it sets `completed = true` and overwrites `completedAt` with the
supplied fire time. (In the running system each job's timer is armed once
and IDs are never reused, so the callback fires at most once per job and
`completedAt` ends up as that single fire's timestamp.) -/
theorem C2_fire_overwrites (jobID : Nat) (t : Int) (s : RegistryState) :
    (s.history.lookup jobID = none → markCompleted jobID t s = s) ∧
    (∀ e, s.history.lookup jobID = some e →
      (markCompleted jobID t s).history.lookup jobID =
        some { e with IsCompleted := true, CompletedTime := some t }) := by
  constructor
  · intro h
    unfold markCompleted
    rw [h]
  · intro e h
    unfold markCompleted
    rw [h]
    exact lookup_insertKey_self _ _ _

/-- C2 witness: firing job 1 (present, not yet completed) at time 100
sets its record to completed with `completedAt = 100`. -/
theorem C2_witness :
    (markCompleted 1 100 (createJob "a" 1 0 initialState).2).history.lookup 1 =
      some { ID := 1, Name := "a", DateTimeAdded := 0, TotalDelaySecs := 1,
             IsCompleted := true, CompletedTime := some 100 } :=
  (C2_fire_overwrites 1 100 (createJob "a" 1 0 initialState).2).2
    { ID := 1, Name := "a", DateTimeAdded := 0, TotalDelaySecs := 1,
      IsCompleted := false, CompletedTime := none } (by decide)

/-- C3: after `maxHistory + k` successful creates (k ≥ 0), the registry
retains exactly `maxHistory = 10` jobs, the insertion order is exactly
the 10 most recently issued IDs `k+1 .. k+10` (oldest first — each
eviction removed the oldest surviving job, the head of the order), and
`Get` succeeds exactly on those IDs. -/
theorem C3_history_bounded (nm : Nat → String) (dl tm : Nat → Int)
    (hdl : ∀ i, 1 ≤ dl i) (k : Nat) :
    (applyOps (createOps nm dl tm (10 + k)) initialState).historyOrder =
        List.range' (k + 1) 10 ∧
    (applyOps (createOps nm dl tm (10 + k)) initialState).historyOrder.length =
        maxHistory ∧
    (∀ id, (getJob id (applyOps (createOps nm dl tm (10 + k)) initialState)).isSome ↔
        (k + 1 ≤ id ∧ id ≤ k + 10)) := by
  have h := applyOps_createOps nm dl tm hdl (10 + k)
  have hm : min (10 + k) 10 = 10 := by omega
  rw [hm] at h
  have ha : 10 + k - 10 + 1 = k + 1 := by omega
  rw [ha] at h
  rw [h]
  refine ⟨rfl, ?_, ?_⟩
  · rw [List.length_range']
    rfl
  · intro id
    show (List.lookup id (historyOfIDs nm dl tm (List.range' (k + 1) 10).reverse)).isSome ↔ _
    rw [lookup_historyOfIDs_isSome, List.mem_reverse, List.mem_range'_1]
    omega

/-- C3 witness: 12 creates with delay 1; the retained insertion order is
exactly `[3, 4, ..., 12]` — jobs 1 and 2 have been evicted. -/
theorem C3_witness :
    (applyOps (createOps (fun _ => "j") (fun _ => 1) (fun _ => 0) 12)
        initialState).historyOrder = List.range' 3 10 :=
  (C3_history_bounded (fun _ => "j") (fun _ => 1) (fun _ => 0) (fun _ => le_refl 1) 2).1

/-- C4: over any request sequence starting from the initial state, the
IDs handed out by the successful creates are `1, 2, 3, ...` in order —
strictly increasing, starting at 1, never reused — regardless of how many
jobs the interleaved evictions removed (eviction never touches
`nextEntryID`). -/
theorem C4_ids_strictly_increasing (reqs : List (String × Int × Int)) :
    (runRequests reqs initialState).1 = List.range' 1 (reqs.countP isValidReq) ∧
    (runRequests reqs initialState).1.Pairwise (· < ·) := by
  have h := runRequests_ids reqs initialState
  refine ⟨h, ?_⟩
  rw [h]
  exact List.pairwise_lt_range' 1 _

/-- C5: whenever the derived status is "completed" (flag set or clock
past the deadline) the view shows `elapsed = totalDelaySeconds` and
`remaining = 0`; otherwise `elapsed = floor((now - createdAt)/1s)` and
`remaining = max 0 (totalDelaySeconds - elapsed)`. The floor agrees with
Go's truncation because `now ≥ createdAt` (Go measures the elapsed
duration with the monotonic clock, so it is never negative). -/
theorem C5_elapsed_remaining (e : DelayEntry) (now : Int)
    (h : e.DateTimeAdded ≤ now) :
    ((getStatusDetails e now).2.1 = "completed" →
      (getStatusDetails e now).1 = e.TotalDelaySecs ∧
      clampRemaining e (getStatusDetails e now).1 = 0) ∧
    ((getStatusDetails e now).2.1 = "in-progress" →
      (getStatusDetails e now).1 = Int.fdiv (now - e.DateTimeAdded) nsPerSec ∧
      clampRemaining e (getStatusDetails e now).1 =
        max 0 (e.TotalDelaySecs - (getStatusDetails e now).1)) := by
  simp only [getStatusDetails]
  split
  · refine ⟨fun _ => ⟨rfl, ?_⟩, fun hs => by simp at hs⟩
    simp [clampRemaining]
  · refine ⟨fun hs => by simp at hs, fun _ => ⟨?_, ?_⟩⟩
    · exact (Int.fdiv_eq_tdiv (by omega) (by decide)).symm
    · simp only [clampRemaining]
      rcases le_or_lt 0 (e.TotalDelaySecs - Int.tdiv (now - e.DateTimeAdded) nsPerSec)
        with hr | hr
      · rw [if_neg (by omega), max_eq_right hr]
      · rw [if_pos hr, max_eq_left (le_of_lt hr)]

/-- C5 witness: a job created at 0 with a 5-second delay, queried at
2.5e9 ns, shows the floor of the elapsed duration (2 seconds). -/
theorem C5_witness :
    (getStatusDetails sampleEntry 2500000000).1 = Int.fdiv (2500000000 - 0) nsPerSec :=
  ((C5_elapsed_remaining sampleEntry 2500000000 (by decide)).2 (by decide)).1

/-- C6: `Create` fails exactly when the requested delay is < 1, and on
failure the whole result is `(none, s)`: nothing stored, no ID consumed,
the insertion order untouched and no timer armed (the `go runTimer`
launch list is part of the state). The check happens before any mutation
(src/main.go line 242). -/
theorem C6_invalid_delay (jobName : String) (delay now : Int) (s : RegistryState) :
    ((createJob jobName delay now s).1 = none ↔ delay < 1) ∧
    (delay < 1 → createJob jobName delay now s = (none, s)) := by
  unfold createJob
  by_cases h : delay < 1
  · simp [h]
  · simp [h]

/-- C6 witness: a create with delay 0 fully fails and leaves the initial
state unchanged. -/
theorem C6_witness : createJob "x" 0 0 initialState = (none, initialState) :=
  (C6_invalid_delay "x" 0 0 initialState).2 (by decide)

/-- C7: a completion fire for an ID that is not currently in the registry
(never issued, or evicted) leaves the whole state unchanged — nothing is
resurrected or created, and `runTimer`'s lookup-guarded body cannot fail. -/
theorem C7_fire_absent_is_noop (jobID : Nat) (t : Int) (s : RegistryState)
    (h : s.history.lookup jobID = none) : markCompleted jobID t s = s := by
  unfold markCompleted
  rw [h]

/-- C7 witness: after 12 creates job 1 has been evicted; firing its timer
at time 99 leaves the registry state bit-for-bit unchanged. -/
theorem C7_witness :
    ((List.range 12).foldl (fun s _i => (createJob "j" 1 0 s).2)
        initialState).history.lookup 1 = none ∧
    markCompleted 1 99 ((List.range 12).foldl (fun s _i => (createJob "j" 1 0 s).2)
        initialState) =
      (List.range 12).foldl (fun s _i => (createJob "j" 1 0 s).2) initialState :=
  ⟨by decide, C7_fire_absent_is_noop 1 99 _ (by decide)⟩

/-- C8: `Get` reports not-found exactly when the ID is not among the keys
of the retained history, and any record it returns is genuinely bound to
that ID in the history. -/
theorem C8_get_not_found (jobID : Nat) (s : RegistryState) :
    (getJob jobID s = none ↔ jobID ∉ s.history.map Prod.fst) ∧
    (∀ e, getJob jobID s = some e → (jobID, e) ∈ s.history) := by
  constructor
  · rw [getJob, mem_keys_iff_lookup_isSome]
    exact Option.not_isSome_iff_eq_none.symm
  · intro e h
    rw [getJob] at h
    rcases List.lookup_eq_some_iff.mp h with ⟨l₁, l₂, heq, -⟩
    rw [heq]
    simp

/-- C8 witness: in the state after one create, job 1 is retained and
`Get` returns its record, which is bound to key 1 in the history. -/
theorem C8_witness :
    ((1 : Nat), sampleEntry) ∈ (createJob "a" 5 0 initialState).2.history :=
  (C8_get_not_found 1 (createJob "a" 5 0 initialState).2).2 sampleEntry (by decide)

/-- C9: status derivation is deterministic in `(job, now)` and the read
path returns the registry state unchanged (the handler only reads under
the lock; the job record is passed by value and never written back). -/
theorem C9_derive_deterministic (e1 e2 : DelayEntry) (n1 n2 : Int)
    (jobID : Nat) (s : RegistryState) (he : e1 = e2) (hn : n1 = n2) :
    getStatusDetails e1 n1 = getStatusDetails e2 n2 ∧
    apiStatusDetail jobID n1 s = apiStatusDetail jobID n2 s ∧
    (apiStatusDetail jobID n1 s).2 = s := by
  subst he; subst hn
  refine ⟨rfl, rfl, ?_⟩
  unfold apiStatusDetail
  cases hl : s.history.lookup jobID <;> rfl

/-- C9 witness at a concrete job, instant and state. -/
theorem C9_witness :
    getStatusDetails sampleEntry 0 = getStatusDetails sampleEntry 0 ∧
    apiStatusDetail 1 0 initialState = apiStatusDetail 1 0 initialState ∧
    (apiStatusDetail 1 0 initialState).2 = initialState :=
  C9_derive_deterministic sampleEntry sampleEntry 0 0 1 initialState rfl rfl

/-- C10: after any sequence of operations (creates — with their built-in
evictions — and completion fires) starting from the initial state, the
keys of the history map are exactly the IDs in the insertion-order list,
and that list has no duplicates: no entry is reachable by lookup but
missing from the order, or vice versa. -/
theorem C10_keys_match_order (ops : List Op) :
    goodState (applyOps ops initialState) :=
  (registryInv_applyOps ops initialState registryInv_initial).1

end Countdown
